import Mathlib

/-!
Verification development for the translit transliteration library.

The library is embedded shallowly: Rust string slices become lists of
characters, the UTF-8 byte length of a slice is computed explicitly, the
standard library stable sort is modelled by a stable insertion sort, and
the standard library substring replacement is modelled by a fuelled
left-to-right scanner.  The namespace Translit embeds the engine of
src/src/transliterator.rs; the namespace TranslitLib embeds the older
engine of src/src/lib.rs.
-/

namespace Translit

/-- A token: the character sequence of one side of a substitution rule. -/
abbrev Token := List Char

/-- The CharsMapping type: a list of (source, target) token pairs. -/
abbrev CharsMapping := List (Token × Token)

/-- The backtick character, written by its code point. -/
def bq : Char := Char.ofNat 96

/-- UTF-8 byte length of a token, matching the Rust len method on str. -/
def utf8Len : Token → Nat
  | [] => 0
  | c :: rest => c.utf8Size + utf8Len rest

/-- The comparator compare_len of src/src/transliterator.rs lines 60 to 68
(and identically src/src/lib.rs lines 114 to 122): Equal when the byte
lengths agree, Greater when the left token is byte-longer, Less otherwise. -/
def compare_len (left right : Token) : Ordering :=
  if utf8Len left = utf8Len right then Ordering.eq
  else if utf8Len left > utf8Len right then Ordering.gt
  else Ordering.lt

/-- Stable insertion of an element into a list already sorted ascending with
respect to cmp: the new element is placed before the first strictly greater
element, hence after every element it compares equal to. -/
def insertBy {α : Type} (cmp : α → α → Ordering) (x : α) : List α → List α
  | [] => [x]
  | y :: ys => if cmp x y = Ordering.lt then x :: y :: ys else y :: insertBy cmp x ys

/-- The Rust Vec sort_by stable sort, modelled as a stable insertion sort:
elements are taken left to right and each is inserted after its equals. -/
def stableSortBy {α : Type} (cmp : α → α → Ordering) (l : List α) : List α :=
  l.foldl (fun acc x => insertBy cmp x acc) []

/-- The sort applied at engine construction, src/src/transliterator.rs line 70
(and identically src/src/lib.rs line 79): sort_by with the comparator
compare_len applied to the target components in swapped order, giving a
descending stable sort on the byte length of the target token. -/
def sortRules (l : CharsMapping) : CharsMapping :=
  stableSortBy (fun a b => compare_len b.2 a.2) l

/-- The Transliterator struct of src/src/transliterator.rs line 31. -/
structure Transliterator where
  rules : CharsMapping

/-- Transliterator new, src/src/transliterator.rs lines 58 to 73: sort the
supplied table and store it. -/
def Transliterator.new (custom_rules : CharsMapping) : Transliterator :=
  { rules := sortRules custom_rules }

/-- Helper for the empty-pattern case of the Rust str replace: after each
character of the scanned string the replacement is inserted again. -/
def interleave (rep : Token) : List Char → List Char
  | [] => []
  | c :: rest => c :: (rep ++ interleave rep rest)

/-- Fuelled left-to-right scanner for the Rust str replace with a nonempty
pattern p0 :: pt: at each position, if the pattern is a prefix of what
remains, emit the replacement and skip past the match; otherwise keep the
character and continue.  Matches are leftmost and non-overlapping and the
emitted replacement is never rescanned.  The fuel is an upper bound on the
scanned length, making the definition structurally recursive. -/
def replaceCore (p0 : Char) (pt rep : Token) : Nat → List Char → List Char
  | 0, s => s
  | _ + 1, [] => []
  | fuel + 1, c :: rest =>
    if List.isPrefixOf (p0 :: pt) (c :: rest) then
      rep ++ replaceCore p0 pt rep fuel (List.drop pt.length rest)
    else
      c :: replaceCore p0 pt rep fuel rest

/-- The Rust str replace of pattern pat by to inside s.  An empty pattern
matches at every character boundary, so the replacement is inserted before
every character and at the end, exactly as in Rust. -/
def replaceList (s pat rep : Token) : Token :=
  match pat with
  | [] => rep ++ interleave rep s
  | p0 :: pt => replaceCore p0 pt rep s.length s

/-- Transliterator convert, src/src/transliterator.rs lines 76 to 92 (and
identically src/src/lib.rs lines 85 to 101): fold the sorted rules over the
working string, replacing source by target, or target by source when
inverted. -/
def Transliterator.convert (t : Transliterator) (src : Token) (invert : Bool) : Token :=
  t.rules.foldl
    (fun input elem =>
      if invert then replaceList input elem.2 elem.1
      else replaceList input elem.1 elem.2)
    src

/-- Transliterator to_latin, src/src/transliterator.rs lines 95 to 100. -/
def Transliterator.to_latin (t : Transliterator) (src : Token) : Token :=
  t.convert src false

/-- Transliterator from_latin, src/src/transliterator.rs lines 102 to 107. -/
def Transliterator.from_latin (t : Transliterator) (src : Token) : Token :=
  t.convert src true

/-- State-passing form of convert: the Rust method borrows the engine
immutably, so a call returns the output together with the untouched engine. -/
def Transliterator.convertS (t : Transliterator) (src : Token) (invert : Bool) :
    Token × Transliterator :=
  (t.convert src invert, t)

/-- Boolean substring occurrence test: the pattern occurs in the string, in
the sense of the Rust contains method.  The empty pattern occurs in every
string. -/
def occursIn (pat : Token) : List Char → Bool
  | [] => pat.isEmpty
  | c :: rest => List.isPrefixOf pat (c :: rest) || occursIn pat rest

/-- The matched side of a rule: the source token in the forward direction,
the target token when inverted. -/
def matchedSide (invert : Bool) (e : Token × Token) : Token :=
  if invert then e.2 else e.1

/-- The replacement side of a rule: the opposite side of the matched one. -/
def replacementSide (invert : Bool) (e : Token × Token) : Token :=
  if invert then e.1 else e.2

end Translit

namespace Translit

/-- The ICAO Passport 2013 Russian table, transcribed entry by entry from src/src/passport2013.rs. -/
def iternational_passport_2013_ru : CharsMapping := [
  (['А'], ['A']),
  (['Б'], ['B']),
  (['В'], ['V']),
  (['Г'], ['G']),
  (['Д'], ['D']),
  (['Е'], ['E']),
  (['Ё'], ['E']),
  (['Ж'], ['Z', 'h']),
  (['З'], ['Z']),
  (['И'], ['I']),
  (['Й'], ['I']),
  (['К'], ['K']),
  (['Л'], ['L']),
  (['М'], ['M']),
  (['Н'], ['N']),
  (['О'], ['O']),
  (['П'], ['P']),
  (['Р'], ['R']),
  (['С'], ['S']),
  (['Т'], ['T']),
  (['У'], ['U']),
  (['Ф'], ['F']),
  (['Х'], ['K', 'h']),
  (['Ц'], ['T', 's']),
  (['Ч'], ['C', 'h']),
  (['Ш'], ['S', 'h']),
  (['Щ'], ['S', 'h', 'c', 'h']),
  (['Ъ'], ['I', 'e']),
  (['Ы'], ['Y']),
  (['Ь'], []),
  (['Э'], ['E']),
  (['Ю'], ['I', 'u']),
  (['Я'], ['I', 'a']),
  (['а'], ['a']),
  (['б'], ['b']),
  (['в'], ['v']),
  (['г'], ['g']),
  (['д'], ['d']),
  (['е'], ['e']),
  (['ё'], ['e']),
  (['ж'], ['z', 'h']),
  (['з'], ['z']),
  (['и'], ['i']),
  (['й'], ['i']),
  (['к'], ['k']),
  (['л'], ['l']),
  (['м'], ['m']),
  (['н'], ['n']),
  (['о'], ['o']),
  (['п'], ['p']),
  (['р'], ['r']),
  (['с'], ['s']),
  (['т'], ['t']),
  (['у'], ['u']),
  (['ф'], ['f']),
  (['х'], ['k', 'h']),
  (['ц'], ['t', 's']),
  (['ч'], ['c', 'h']),
  (['ш'], ['s', 'h']),
  (['щ'], ['s', 'h', 'c', 'h']),
  (['ъ'], ['i', 'e']),
  (['ы'], ['y']),
  (['ь'], []),
  (['э'], ['e']),
  (['ю'], ['i', 'u']),
  (['я'], ['i', 'a']),
  (['№'], ['#'])
]

/-- Modelled from the spec: the file gost779.rs defining gost779b_ru is not under src/, only its callers and tests are; this is the GOST 7.79 System B Russian table the spec names, corroborated by the test strings in src/src/tests.rs and by the example src/examples/web-gost779.rs. -/
def gost779b_ru : CharsMapping := [
  (['а'], ['a']),
  (['б'], ['b']),
  (['в'], ['v']),
  (['г'], ['g']),
  (['д'], ['d']),
  (['е'], ['e']),
  (['ё'], ['y', 'o']),
  (['ж'], ['z', 'h']),
  (['з'], ['z']),
  (['и'], ['i']),
  (['й'], ['j']),
  (['к'], ['k']),
  (['л'], ['l']),
  (['м'], ['m']),
  (['н'], ['n']),
  (['о'], ['o']),
  (['п'], ['p']),
  (['р'], ['r']),
  (['с'], ['s']),
  (['т'], ['t']),
  (['у'], ['u']),
  (['ф'], ['f']),
  (['х'], ['x']),
  (['ц'], ['c', 'z']),
  (['ч'], ['c', 'h']),
  (['ш'], ['s', 'h']),
  (['щ'], ['s', 'h', 'h']),
  (['ъ'], [bq, bq]),
  (['ы'], ['y', bq]),
  (['ь'], [bq]),
  (['э'], ['e', bq]),
  (['ю'], ['y', 'u']),
  (['я'], ['y', 'a']),
  (['А'], ['A']),
  (['Б'], ['B']),
  (['В'], ['V']),
  (['Г'], ['G']),
  (['Д'], ['D']),
  (['Е'], ['E']),
  (['Ё'], ['Y', 'o']),
  (['Ж'], ['Z', 'h']),
  (['З'], ['Z']),
  (['И'], ['I']),
  (['Й'], ['J']),
  (['К'], ['K']),
  (['Л'], ['L']),
  (['М'], ['M']),
  (['Н'], ['N']),
  (['О'], ['O']),
  (['П'], ['P']),
  (['Р'], ['R']),
  (['С'], ['S']),
  (['Т'], ['T']),
  (['У'], ['U']),
  (['Ф'], ['F']),
  (['Х'], ['X']),
  (['Ц'], ['C', 'z']),
  (['Ч'], ['C', 'h']),
  (['Ш'], ['S', 'h']),
  (['Щ'], ['S', 'h', 'h']),
  (['Ъ'], [bq, bq]),
  (['Ы'], ['Y', bq]),
  (['Ь'], [bq]),
  (['Э'], ['E', bq]),
  (['Ю'], ['Y', 'u']),
  (['Я'], ['Y', 'a']),
  (['№'], ['#'])
]

/-- Modelled from the spec: the file gost779.rs defining gost779b_by is not under src/; this is the GOST 7.79 System B Belarusian table the spec names, corroborated by the test strings in src/src/tests.rs. -/
def gost779b_by : CharsMapping := [
  (['а'], ['a']),
  (['б'], ['b']),
  (['в'], ['v']),
  (['г'], ['h']),
  (['д'], ['d']),
  (['е'], ['e']),
  (['ё'], ['y', 'o']),
  (['ж'], ['z', 'h']),
  (['з'], ['z']),
  (['і'], ['i']),
  (['й'], ['j']),
  (['к'], ['k']),
  (['л'], ['l']),
  (['м'], ['m']),
  (['н'], ['n']),
  (['о'], ['o']),
  (['п'], ['p']),
  (['р'], ['r']),
  (['с'], ['s']),
  (['т'], ['t']),
  (['у'], ['u']),
  (['ў'], ['u', bq]),
  (['ф'], ['f']),
  (['х'], ['x']),
  (['ц'], ['c']),
  (['ч'], ['c', 'h']),
  (['ш'], ['s', 'h']),
  (['ы'], ['y', bq]),
  (['ь'], [bq]),
  (['э'], ['e', bq]),
  (['ю'], ['y', 'u']),
  (['я'], ['y', 'a']),
  (['А'], ['A']),
  (['Б'], ['B']),
  (['В'], ['V']),
  (['Г'], ['H']),
  (['Д'], ['D']),
  (['Е'], ['E']),
  (['Ё'], ['Y', 'o']),
  (['Ж'], ['Z', 'h']),
  (['З'], ['Z']),
  (['І'], ['I']),
  (['Й'], ['J']),
  (['К'], ['K']),
  (['Л'], ['L']),
  (['М'], ['M']),
  (['Н'], ['N']),
  (['О'], ['O']),
  (['П'], ['P']),
  (['Р'], ['R']),
  (['С'], ['S']),
  (['Т'], ['T']),
  (['У'], ['U']),
  (['Ў'], ['U', bq]),
  (['Ф'], ['F']),
  (['Х'], ['X']),
  (['Ц'], ['C']),
  (['Ч'], ['C', 'h']),
  (['Ш'], ['S', 'h']),
  (['Ы'], ['Y', bq]),
  (['Ь'], [bq]),
  (['Э'], ['E', bq]),
  (['Ю'], ['Y', 'u']),
  (['Я'], ['Y', 'a']),
  (['№'], ['#'])
]

/-- Modelled from the spec: the file gost779.rs defining gost779b_ua is not under src/; this is the GOST 7.79 System B Ukrainian table the spec names, corroborated by the test strings in src/src/tests.rs. -/
def gost779b_ua : CharsMapping := [
  (['а'], ['a']),
  (['б'], ['b']),
  (['в'], ['v']),
  (['г'], ['g']),
  (['ґ'], ['g', bq]),
  (['д'], ['d']),
  (['е'], ['e']),
  (['є'], ['y', 'e']),
  (['ж'], ['z', 'h']),
  (['з'], ['z']),
  (['и'], ['y', bq]),
  (['і'], ['i']),
  (['ї'], ['y', 'i']),
  (['й'], ['j']),
  (['к'], ['k']),
  (['л'], ['l']),
  (['м'], ['m']),
  (['н'], ['n']),
  (['о'], ['o']),
  (['п'], ['p']),
  (['р'], ['r']),
  (['с'], ['s']),
  (['т'], ['t']),
  (['у'], ['u']),
  (['ф'], ['f']),
  (['х'], ['x']),
  (['ц'], ['c']),
  (['ч'], ['c', 'h']),
  (['ш'], ['s', 'h']),
  (['щ'], ['s', 'h', 'h']),
  (['ь'], [bq]),
  (['ю'], ['y', 'u']),
  (['я'], ['y', 'a']),
  (['А'], ['A']),
  (['Б'], ['B']),
  (['В'], ['V']),
  (['Г'], ['G']),
  (['Ґ'], ['G', bq]),
  (['Д'], ['D']),
  (['Е'], ['E']),
  (['Є'], ['Y', 'e']),
  (['Ж'], ['Z', 'h']),
  (['З'], ['Z']),
  (['И'], ['Y', bq]),
  (['І'], ['I']),
  (['Ї'], ['Y', 'i']),
  (['Й'], ['J']),
  (['К'], ['K']),
  (['Л'], ['L']),
  (['М'], ['M']),
  (['Н'], ['N']),
  (['О'], ['O']),
  (['П'], ['P']),
  (['Р'], ['R']),
  (['С'], ['S']),
  (['Т'], ['T']),
  (['У'], ['U']),
  (['Ф'], ['F']),
  (['Х'], ['X']),
  (['Ц'], ['C']),
  (['Ч'], ['C', 'h']),
  (['Ш'], ['S', 'h']),
  (['Щ'], ['S', 'h', 'h']),
  (['Ь'], [bq]),
  (['Ю'], ['Y', 'u']),
  (['Я'], ['Y', 'a']),
  (['№'], ['#'])
]

/-- The Language enum of src/src/transliterator.rs lines 21 to 25. -/
inductive Language
  | Ru
  | By
  | Ua

/-- The Gost779B struct of src/src/transliterator.rs line 127. -/
structure Gost779B where
  translit : Transliterator

/-- Gost779B new, src/src/transliterator.rs lines 131 to 143: select the
table for the language and build the engine. -/
def Gost779B.new (lang : Language) : Gost779B :=
  { translit :=
      Transliterator.new
        (match lang with
         | Language.Ru => gost779b_ru
         | Language.By => gost779b_by
         | Language.Ua => gost779b_ua) }

/-- Gost779B to_latin, src/src/transliterator.rs lines 145 to 149. -/
def Gost779B.to_latin (g : Gost779B) (src : Token) : Token :=
  g.translit.to_latin src

/-- Gost779B from_latin, src/src/transliterator.rs lines 151 to 155. -/
def Gost779B.from_latin (g : Gost779B) (src : Token) : Token :=
  g.translit.from_latin src

/-- The Passport2013 struct of src/src/transliterator.rs line 177. -/
structure Passport2013 where
  translit : Transliterator

/-- Passport2013 new, src/src/transliterator.rs lines 181 to 187. -/
def Passport2013.new : Passport2013 :=
  { translit := Transliterator.new iternational_passport_2013_ru }

/-- Passport2013 to_latin, src/src/transliterator.rs lines 189 to 193. -/
def Passport2013.to_latin (p : Passport2013) (src : Token) : Token :=
  p.translit.to_latin src

/-- Fuelled splitter on a nonempty pattern p0 :: pt: the pieces of the string
between consecutive leftmost non-overlapping matches of the pattern. -/
def splitCore (p0 : Char) (pt : Token) : Nat → List Char → List (List Char)
  | 0, s => [s]
  | _ + 1, [] => [[]]
  | fuel + 1, c :: rest =>
    if List.isPrefixOf (p0 :: pt) (c :: rest) then
      [] :: splitCore p0 pt fuel (List.drop pt.length rest)
    else
      match splitCore p0 pt fuel rest with
      | [] => [[c]]
      | piece :: more => (c :: piece) :: more

/-- Specification-side splitter: the pieces of the string between consecutive
leftmost non-overlapping matches of the pattern.  An empty pattern matches at
every character boundary, so every piece is a single character and the outer
pieces are empty. -/
def splitOnList (pat s : List Char) : List (List Char) :=
  match pat with
  | [] => [] :: (s.map (fun c => [c]) ++ [[]])
  | p0 :: pt => splitCore p0 pt s.length s

/-- Join a list of pieces, placing the separator between adjacent pieces. -/
def joinWith (sep : Token) : List (List Char) → List Char
  | [] => []
  | piece :: more =>
    match more with
    | [] => piece
    | _ :: _ => piece ++ sep ++ joinWith sep more

/-- Specification-side replacement: a global, non-overlapping, literal
substring replacement of every occurrence of the pattern by the replacement,
phrased as splitting on the pattern and joining with the replacement. -/
def specReplace (s pat rep : Token) : Token :=
  joinWith rep (splitOnList pat s)

end Translit

namespace TranslitLib

open Translit (Token CharsMapping replaceList stableSortBy)

/-- The comparator compare_len of src/src/lib.rs lines 114 to 122, the body
identical to the one of src/src/transliterator.rs. -/
def compare_len (left right : Token) : Ordering :=
  if Translit.utf8Len left = Translit.utf8Len right then Ordering.eq
  else if Translit.utf8Len left > Translit.utf8Len right then Ordering.gt
  else Ordering.lt

/-- The Transliterator struct of src/src/lib.rs line 31. -/
structure Transliterator where
  rules : CharsMapping

/-- Transliterator from_custom_transliteration_table, src/src/lib.rs lines 75
to 82: sort the supplied table with compare_len on the swapped target
components and store it. -/
def Transliterator.from_custom_transliteration_table (custom_rules : CharsMapping) :
    Transliterator :=
  { rules := stableSortBy (fun a b => compare_len b.2 a.2) custom_rules }

/-- Transliterator convert, src/src/lib.rs lines 85 to 101: the same fold of
replacements as in src/src/transliterator.rs. -/
def Transliterator.convert (t : Transliterator) (src : Token) (invert : Bool) : Token :=
  t.rules.foldl
    (fun input elem =>
      if invert then replaceList input elem.2 elem.1
      else replaceList input elem.1 elem.2)
    src

end TranslitLib

namespace Translit

theorem compare_len_lt_iff (a b : Token) :
    compare_len a b = Ordering.lt ↔ utf8Len a < utf8Len b := by
  unfold compare_len
  by_cases h1 : utf8Len a = utf8Len b
  · rw [if_pos h1]
    constructor
    · intro h; exact Ordering.noConfusion h
    · intro h; omega
  · rw [if_neg h1]
    by_cases h2 : utf8Len a > utf8Len b
    · rw [if_pos h2]
      constructor
      · intro h; exact Ordering.noConfusion h
      · intro h; omega
    · rw [if_neg h2]
      constructor
      · intro _; omega
      · intro _; rfl

theorem compare_len_eq_iff (a b : Token) :
    compare_len a b = Ordering.eq ↔ utf8Len a = utf8Len b := by
  unfold compare_len
  by_cases h1 : utf8Len a = utf8Len b
  · rw [if_pos h1]
    exact iff_of_true rfl h1
  · rw [if_neg h1]
    by_cases h2 : utf8Len a > utf8Len b
    · rw [if_pos h2]
      constructor
      · intro h; exact Ordering.noConfusion h
      · intro h; exact absurd h h1
    · rw [if_neg h2]
      constructor
      · intro h; exact Ordering.noConfusion h
      · intro h; exact absurd h h1

theorem insertBy_nil {α : Type} (cmp : α → α → Ordering) (x : α) :
    insertBy cmp x [] = [x] := rfl

theorem insertBy_cons {α : Type} (cmp : α → α → Ordering) (x y : α) (ys : List α) :
    insertBy cmp x (y :: ys)
      = if cmp x y = Ordering.lt then x :: y :: ys else y :: insertBy cmp x ys := rfl

theorem mem_insertBy {α : Type} (cmp : α → α → Ordering) (x z : α) :
    ∀ l : List α, z ∈ insertBy cmp x l ↔ z = x ∨ z ∈ l := by
  intro l
  induction l with
  | nil => simp [insertBy_nil]
  | cons y ys ih =>
    rw [insertBy_cons]
    by_cases hc : cmp x y = Ordering.lt
    · rw [if_pos hc]
      exact List.mem_cons
    · rw [if_neg hc]
      simp only [List.mem_cons, ih]
      tauto

theorem pairwise_insertBy {α : Type} (cmp : α → α → Ordering) (key : α → Nat)
    (hcmp : ∀ a b, cmp a b = Ordering.lt ↔ key b < key a) (x : α) :
    ∀ l : List α, List.Pairwise (fun a b => key b ≤ key a) l →
      List.Pairwise (fun a b => key b ≤ key a) (insertBy cmp x l) := by
  intro l
  induction l with
  | nil =>
    intro _
    simp [insertBy]
  | cons y ys ih =>
    intro hp
    rw [List.pairwise_cons] at hp
    obtain ⟨hy, hys⟩ := hp
    by_cases hc : cmp x y = Ordering.lt
    · have hlt : key y < key x := (hcmp x y).mp hc
      have hins : insertBy cmp x (y :: ys) = x :: y :: ys := by
        rw [insertBy_cons, if_pos hc]
      rw [hins, List.pairwise_cons]
      constructor
      · intro z hz
        rcases List.mem_cons.mp hz with rfl | hz2
        · omega
        · have := hy z hz2; omega
      · exact List.pairwise_cons.mpr ⟨hy, hys⟩
    · have hle : key x ≤ key y := by
        have h2 : ¬ key y < key x := fun hlt => hc ((hcmp x y).mpr hlt)
        omega
      have hins : insertBy cmp x (y :: ys) = y :: insertBy cmp x ys := by
        rw [insertBy_cons, if_neg hc]
      rw [hins, List.pairwise_cons]
      constructor
      · intro z hz
        rcases (mem_insertBy cmp x z ys).mp hz with rfl | hz2
        · exact hle
        · exact hy z hz2
      · exact ih hys

theorem filter_insertBy {α : Type} (cmp : α → α → Ordering) (key : α → Nat)
    (hcmp : ∀ a b, cmp a b = Ordering.lt ↔ key b < key a) (k : Nat) (x : α) :
    ∀ l : List α, List.Pairwise (fun a b => key b ≤ key a) l →
      List.filter (fun e => key e == k) (insertBy cmp x l)
        = if key x = k
          then List.filter (fun e => key e == k) l ++ [x]
          else List.filter (fun e => key e == k) l := by
  intro l
  induction l with
  | nil =>
    intro _
    by_cases h : key x = k
    · simp [insertBy, h]
    · simp [insertBy, h]
  | cons y ys ih =>
    intro hp
    rw [List.pairwise_cons] at hp
    obtain ⟨hy, hys⟩ := hp
    by_cases hc : cmp x y = Ordering.lt
    · have hlt : key y < key x := (hcmp x y).mp hc
      have hins : insertBy cmp x (y :: ys) = x :: y :: ys := by
        rw [insertBy_cons, if_pos hc]
      rw [hins]
      by_cases hk : key x = k
      · have hfil : List.filter (fun e => key e == k) (y :: ys) = [] := by
          rw [List.filter_eq_nil_iff]
          intro z hz
          have hzle : key z ≤ key y := by
            rcases List.mem_cons.mp hz with rfl | hz2
            · exact Nat.le_refl _
            · exact hy z hz2
          simp only [beq_iff_eq]
          omega
        simp [List.filter_cons, hk, hfil]
      · simp [List.filter_cons, hk, beq_iff_eq]
    · have hle : key x ≤ key y := by
        have h2 : ¬ key y < key x := fun hlt => hc ((hcmp x y).mpr hlt)
        omega
      have hins : insertBy cmp x (y :: ys) = y :: insertBy cmp x ys := by
        rw [insertBy_cons, if_neg hc]
      rw [hins, List.filter_cons, List.filter_cons, ih hys]
      by_cases hk : key x = k <;> by_cases hpy : (key y == k) = true <;>
        simp [hk, hpy, List.cons_append]

theorem foldl_insertBy_pairwise {α : Type} (cmp : α → α → Ordering) (key : α → Nat)
    (hcmp : ∀ a b, cmp a b = Ordering.lt ↔ key b < key a) :
    ∀ (l acc : List α), List.Pairwise (fun a b => key b ≤ key a) acc →
      List.Pairwise (fun a b => key b ≤ key a)
        (List.foldl (fun acc x => insertBy cmp x acc) acc l) := by
  intro l
  induction l with
  | nil => intro acc h; exact h
  | cons x xs ih =>
    intro acc h
    rw [List.foldl_cons]
    exact ih _ (pairwise_insertBy cmp key hcmp x acc h)

theorem foldl_insertBy_filter {α : Type} (cmp : α → α → Ordering) (key : α → Nat)
    (hcmp : ∀ a b, cmp a b = Ordering.lt ↔ key b < key a) (k : Nat) :
    ∀ (l acc : List α), List.Pairwise (fun a b => key b ≤ key a) acc →
      List.filter (fun e => key e == k)
          (List.foldl (fun acc x => insertBy cmp x acc) acc l)
        = List.filter (fun e => key e == k) acc
            ++ List.filter (fun e => key e == k) l := by
  intro l
  induction l with
  | nil => intro acc h; simp
  | cons x xs ih =>
    intro acc h
    rw [List.foldl_cons, ih _ (pairwise_insertBy cmp key hcmp x acc h),
      filter_insertBy cmp key hcmp k x acc h, List.filter_cons]
    by_cases hk : key x = k
    · simp [hk, List.append_assoc]
    · simp [hk, beq_iff_eq]

theorem mem_foldl_insertBy {α : Type} (cmp : α → α → Ordering) :
    ∀ (l acc : List α) (z : α),
      z ∈ List.foldl (fun acc x => insertBy cmp x acc) acc l → z ∈ acc ∨ z ∈ l := by
  intro l
  induction l with
  | nil => intro acc z h; exact Or.inl h
  | cons x xs ih =>
    intro acc z h
    rw [List.foldl_cons] at h
    rcases ih _ z h with h2 | h2
    · rcases (mem_insertBy cmp x z acc).mp h2 with rfl | h3
      · exact Or.inr (List.mem_cons_self _ _)
      · exact Or.inl h3
    · exact Or.inr (List.mem_cons_of_mem _ h2)

theorem sortRules_pairwise (l : CharsMapping) :
    List.Pairwise (fun a b => utf8Len b.2 ≤ utf8Len a.2) (sortRules l) :=
  foldl_insertBy_pairwise _ (fun e => utf8Len e.2)
    (fun a b => compare_len_lt_iff b.2 a.2) l [] List.Pairwise.nil

theorem sortRules_filter (l : CharsMapping) (k : Nat) :
    List.filter (fun e => utf8Len e.2 == k) (sortRules l)
      = List.filter (fun e => utf8Len e.2 == k) l := by
  have h := foldl_insertBy_filter _ (fun e => utf8Len e.2)
    (fun a b => compare_len_lt_iff b.2 a.2) k l [] List.Pairwise.nil
  simpa using h

theorem mem_sortRules (l : CharsMapping) (z : Token × Token) (h : z ∈ sortRules l) :
    z ∈ l := by
  rcases mem_foldl_insertBy _ l [] z h with h2 | h2
  · cases h2
  · exact h2

end Translit

namespace Translit

theorem replaceCore_zero (p0 : Char) (pt rep : Token) (s : List Char) :
    replaceCore p0 pt rep 0 s = s := rfl

theorem replaceCore_succ_nil (p0 : Char) (pt rep : Token) (fuel : Nat) :
    replaceCore p0 pt rep (fuel + 1) [] = [] := rfl

theorem replaceCore_succ_cons (p0 : Char) (pt rep : Token) (fuel : Nat)
    (c : Char) (rest : List Char) :
    replaceCore p0 pt rep (fuel + 1) (c :: rest)
      = if List.isPrefixOf (p0 :: pt) (c :: rest)
        then rep ++ replaceCore p0 pt rep fuel (List.drop pt.length rest)
        else c :: replaceCore p0 pt rep fuel rest := rfl

theorem interleave_nil_rep : ∀ s : List Char, interleave [] s = s := by
  intro s
  induction s with
  | nil => rfl
  | cons c rest ih => simp [interleave, ih]

theorem interleave_length (rep : Token) :
    ∀ s : List Char, (interleave rep s).length = s.length + s.length * rep.length := by
  intro s
  induction s with
  | nil => simp [interleave]
  | cons c rest ih =>
    simp only [interleave, List.length_cons, List.length_append, ih, Nat.succ_mul]
    omega

theorem replaceCore_single_del (c : Char) :
    ∀ (fuel : Nat) (s : List Char), s.length ≤ fuel →
      replaceCore c [] [] fuel s = s.filter (fun a => !(a == c)) := by
  intro fuel
  induction fuel with
  | zero =>
    intro s hs
    have hnil : s = [] := List.eq_nil_of_length_eq_zero (Nat.le_zero.mp hs)
    subst hnil
    rfl
  | succ fuel ih =>
    intro s hs
    cases s with
    | nil => rfl
    | cons a rest =>
      have hrest : rest.length ≤ fuel := by
        simp only [List.length_cons] at hs
        omega
      rw [replaceCore_succ_cons]
      by_cases hac : c = a
      · have hpre : List.isPrefixOf [c] (a :: rest) = true := by
          simp [List.isPrefixOf, hac]
        rw [if_pos hpre]
        simp only [List.length_nil, List.drop_zero, List.nil_append]
        rw [ih rest hrest, List.filter_cons]
        have : (!(a == c)) = false := by simp [hac.symm]
        rw [this]
        simp
      · have hpre : List.isPrefixOf [c] (a :: rest) = false := by
          simp [List.isPrefixOf, hac]
        rw [if_neg (by simp [hpre])]
        rw [ih rest hrest, List.filter_cons]
        have hb : (!(a == c)) = true := by
          simp
          exact fun h => hac h.symm
        rw [hb]
        rfl

theorem replaceList_single_del (c : Char) (s : List Char) :
    replaceList s [c] [] = s.filter (fun a => !(a == c)) :=
  replaceCore_single_del c s.length s (Nat.le_refl _)

theorem occursIn_nil_pat : ∀ s : List Char, occursIn [] s = true := by
  intro s
  cases s with
  | nil => rfl
  | cons c rest => simp [occursIn, List.isPrefixOf]

theorem replaceCore_no_match (p0 : Char) (pt rep : Token) :
    ∀ (fuel : Nat) (s : List Char), occursIn (p0 :: pt) s = false →
      replaceCore p0 pt rep fuel s = s := by
  intro fuel
  induction fuel with
  | zero => intro s _; rfl
  | succ fuel ih =>
    intro s hocc
    cases s with
    | nil => rfl
    | cons c rest =>
      have hocc2 : (List.isPrefixOf (p0 :: pt) (c :: rest) || occursIn (p0 :: pt) rest)
          = false := hocc
      rw [Bool.or_eq_false_iff] at hocc2
      rw [replaceCore_succ_cons, if_neg (by simp [hocc2.1])]
      rw [ih rest hocc2.2]

theorem replaceList_no_occurs (s pat rep : Token) (h : occursIn pat s = false) :
    replaceList s pat rep = s := by
  cases pat with
  | nil =>
    rw [occursIn_nil_pat s] at h
    exact Bool.noConfusion h
  | cons p0 pt =>
    exact replaceCore_no_match p0 pt rep s.length s h

theorem foldl_fix {α β : Type} (f : β → α → β) (b : β) :
    ∀ l : List α, (∀ a ∈ l, f b a = b) → List.foldl f b l = b := by
  intro l
  induction l with
  | nil => intro _; rfl
  | cons x xs ih =>
    intro h
    rw [List.foldl_cons, h x (List.mem_cons_self _ _)]
    exact ih (fun a ha => h a (List.mem_cons_of_mem _ ha))

end Translit

namespace Translit

theorem splitCore_zero (p0 : Char) (pt : Token) (s : List Char) :
    splitCore p0 pt 0 s = [s] := rfl

theorem splitCore_succ_nil (p0 : Char) (pt : Token) (fuel : Nat) :
    splitCore p0 pt (fuel + 1) [] = [[]] := rfl

theorem splitCore_succ_cons (p0 : Char) (pt : Token) (fuel : Nat)
    (c : Char) (rest : List Char) :
    splitCore p0 pt (fuel + 1) (c :: rest)
      = if List.isPrefixOf (p0 :: pt) (c :: rest)
        then [] :: splitCore p0 pt fuel (List.drop pt.length rest)
        else
          match splitCore p0 pt fuel rest with
          | [] => [[c]]
          | piece :: more => (c :: piece) :: more := rfl

theorem splitCore_ne_nil (p0 : Char) (pt : Token) :
    ∀ (fuel : Nat) (s : List Char), splitCore p0 pt fuel s ≠ [] := by
  intro fuel
  induction fuel with
  | zero =>
    intro s
    rw [splitCore_zero]
    exact List.cons_ne_nil _ _
  | succ fuel ih =>
    intro s
    cases s with
    | nil =>
      rw [splitCore_succ_nil]
      exact List.cons_ne_nil _ _
    | cons c rest =>
      rw [splitCore_succ_cons]
      by_cases hp : List.isPrefixOf (p0 :: pt) (c :: rest) = true
      · rw [if_pos hp]
        exact List.cons_ne_nil _ _
      · rw [if_neg hp]
        cases hsp : splitCore p0 pt fuel rest with
        | nil => exact List.cons_ne_nil _ _
        | cons piece more => exact List.cons_ne_nil _ _

theorem joinWith_nil (rep : Token) : joinWith rep [] = [] := rfl

theorem joinWith_single (rep : Token) (piece : List Char) :
    joinWith rep [piece] = piece := rfl

theorem joinWith_cons₂ (rep : Token) (piece q : List Char) (more : List (List Char)) :
    joinWith rep (piece :: q :: more) = piece ++ rep ++ joinWith rep (q :: more) := rfl

theorem joinWith_cons_of_ne_nil (rep : Token) (piece : List Char)
    (more : List (List Char)) (h : more ≠ []) :
    joinWith rep (piece :: more) = piece ++ rep ++ joinWith rep more := by
  cases more with
  | nil => exact absurd rfl h
  | cons q more2 => exact joinWith_cons₂ rep piece q more2

theorem replaceCore_eq_join_split (p0 : Char) (pt rep : Token) :
    ∀ (fuel : Nat) (s : List Char),
      replaceCore p0 pt rep fuel s = joinWith rep (splitCore p0 pt fuel s) := by
  intro fuel
  induction fuel with
  | zero =>
    intro s
    rw [replaceCore_zero, splitCore_zero, joinWith_single]
  | succ fuel ih =>
    intro s
    cases s with
    | nil => rw [replaceCore_succ_nil, splitCore_succ_nil, joinWith_single]
    | cons c rest =>
      rw [replaceCore_succ_cons, splitCore_succ_cons]
      by_cases hp : List.isPrefixOf (p0 :: pt) (c :: rest) = true
      · rw [if_pos hp, if_pos hp, ih,
          joinWith_cons_of_ne_nil rep [] _ (splitCore_ne_nil p0 pt fuel _)]
        simp
      · rw [if_neg hp, if_neg hp, ih]
        cases hsp : splitCore p0 pt fuel rest with
        | nil => exact absurd hsp (splitCore_ne_nil p0 pt fuel rest)
        | cons piece more =>
          cases more with
          | nil => rw [joinWith_single, joinWith_single]
          | cons q more2 =>
            rw [joinWith_cons₂, joinWith_cons₂]
            simp

theorem joinWith_singletons (rep : Token) :
    ∀ s : List Char,
      joinWith rep (s.map (fun c => [c]) ++ [[]]) = interleave rep s := by
  intro s
  induction s with
  | nil => rfl
  | cons c rest ih =>
    have hmap : ((c :: rest).map (fun c => [c]) ++ [[]])
        = [c] :: (rest.map (fun c => [c]) ++ [[]]) := by simp
    rw [hmap, joinWith_cons_of_ne_nil rep [c] _ (by simp), ih]
    simp [interleave]

theorem replaceList_eq_specReplace (s pat rep : Token) :
    replaceList s pat rep = specReplace s pat rep := by
  cases pat with
  | nil =>
    show rep ++ interleave rep s
        = joinWith rep ([] :: (s.map (fun c => [c]) ++ [[]]))
    rw [joinWith_cons_of_ne_nil rep [] _ (by simp), joinWith_singletons]
    simp
  | cons p0 pt =>
    exact replaceCore_eq_join_split p0 pt rep s.length s

end Translit

set_option maxRecDepth 100000

open Translit

/-- Claim C1: for every mapping table, input string and direction flag,
convert equals the sequential fold over the sorted table in which each entry
performs a global, non-overlapping, literal substring replacement (phrased
independently as splitting on the matched token and joining with the
replacement token), the result of each step feeding the next; and to_latin
and from_latin are convert with the flag false and true respectively. -/
theorem c1_convert_is_fold_of_replace (tbl : CharsMapping) (src : Token) (invert : Bool) :
    (Transliterator.new tbl).convert src invert
      = (sortRules tbl).foldl
          (fun w e => if invert then specReplace w e.2 e.1 else specReplace w e.1 e.2)
          src
    ∧ (Transliterator.new tbl).to_latin src = (Transliterator.new tbl).convert src false
    ∧ (Transliterator.new tbl).from_latin src = (Transliterator.new tbl).convert src true := by
  refine ⟨?_, rfl, rfl⟩
  have hstep : (Transliterator.new tbl).convert src invert
      = List.foldl
          (fun input elem =>
            if invert then replaceList input elem.2 elem.1
            else replaceList input elem.1 elem.2)
          src (sortRules tbl) := rfl
  have hfun : (fun (input : Token) (elem : Token × Token) =>
        if invert then replaceList input elem.2 elem.1
        else replaceList input elem.1 elem.2)
      = (fun (w : Token) (e : Token × Token) =>
        if invert then specReplace w e.2 e.1 else specReplace w e.1 e.2) := by
    funext w e
    cases invert <;> simp [replaceList_eq_specReplace]
  rw [hstep, hfun]

/-- Claim C2: after construction the rules are sorted by non-increasing UTF-8
byte length of the target token, entries of equal target byte length keep
their relative order from the input list, the comparator equates any two
tokens of equal byte length regardless of content, and a convert call
returns the engine with its rules untouched. -/
theorem c2_rules_sorted_stable_immutable (l : CharsMapping) :
    List.Pairwise (fun a b => utf8Len b.2 ≤ utf8Len a.2) (Transliterator.new l).rules
    ∧ (∀ k : Nat,
        (Transliterator.new l).rules.filter (fun e => utf8Len e.2 == k)
          = l.filter (fun e => utf8Len e.2 == k))
    ∧ (∀ a b : Token, compare_len a b = Ordering.eq ↔ utf8Len a = utf8Len b)
    ∧ (∀ (src : Token) (invert : Bool),
        ((Transliterator.new l).convertS src invert).2.rules
          = (Transliterator.new l).rules) := by
  refine ⟨?_, ?_, ?_, fun _ _ => rfl⟩
  · exact sortRules_pairwise l
  · intro k
    exact sortRules_filter l k
  · intro a b
    exact compare_len_eq_iff a b

/-- Claim C3 is false as stated: an entry whose matched-side token is empty
does not leave the working string unchanged; on the single-entry table
mapping the soft sign to the empty string, the inverse conversion of the
two-character string ab inserts the soft sign at every character boundary. -/
theorem c3_counterexample_empty_token :
    (Transliterator.new [((['Ь'] : Token), ([] : Token))]).convert ['a', 'b'] true
      ≠ ['a', 'b'] := by decide

/-- Claim C3 amended: the replacement step for an entry whose matched-side
token is empty leaves the working string unchanged exactly when the
replacement-side token is empty as well; otherwise it inserts the
replacement at every character boundary and strictly lengthens the string. -/
theorem c3_empty_token_step_iff (rep s : Token) :
    replaceList s [] rep = s ↔ rep = [] := by
  constructor
  · intro h
    by_contra hne
    have hlen := congrArg List.length h
    have hrl : replaceList s [] rep = rep ++ interleave rep s := rfl
    rw [hrl, List.length_append, interleave_length] at hlen
    have hpos : 0 < rep.length := List.length_pos.mpr hne
    omega
  · intro hrep
    subst hrep
    show [] ++ interleave [] s = s
    rw [List.nil_append, interleave_nil_rep]

/-- Claim C4 is false as stated for tables containing an entry whose
matched-side token is empty: on the table with the single entry mapping the
empty token to x, forward conversion of the empty string returns x. -/
theorem c4_counterexample_empty_source :
    (Transliterator.new [(([] : Token), (['x'] : Token))]).convert [] false ≠ [] := by
  decide

/-- Claim C4 amended: converting the empty string returns the empty string
for every table in which no entry has an empty matched-side token with a
nonempty replacement side, in both directions. -/
theorem c4_empty_input_amended (tbl : CharsMapping) (invert : Bool)
    (h : ∀ e ∈ tbl, matchedSide invert e = [] → replacementSide invert e = []) :
    (Transliterator.new tbl).convert [] invert = [] := by
  have h0 : (Transliterator.new tbl).convert [] invert
      = List.foldl
          (fun input elem =>
            if invert then replaceList input elem.2 elem.1
            else replaceList input elem.1 elem.2)
          [] (sortRules tbl) := rfl
  rw [h0]
  apply foldl_fix
  intro e he
  have hme := h e (mem_sortRules tbl e he)
  cases invert
  · show replaceList [] e.1 e.2 = []
    cases hp : e.1 with
    | nil =>
      have hrep : e.2 = [] := hme hp
      rw [hrep]
      rfl
    | cons p0 pt =>
      rfl
  · show replaceList [] e.2 e.1 = []
    cases hp : e.2 with
    | nil =>
      have hrep : e.1 = [] := hme hp
      rw [hrep]
      rfl
    | cons p0 pt =>
      rfl

/-- Witness for the amended claim C4 at a concrete table. -/
theorem c4_empty_input_amended_witness :
    (∀ e ∈ ([((['а'] : Token), (['a'] : Token))] : CharsMapping),
        matchedSide false e = [] → replacementSide false e = [])
    ∧ (Transliterator.new [((['а'] : Token), (['a'] : Token))]).convert [] false = [] :=
  ⟨by decide,
    c4_empty_input_amended [((['а'] : Token), (['a'] : Token))] false (by decide)⟩

/-- Claim C5: the engine built from the empty table is the identity
transform in both directions on every input. -/
theorem c5_empty_table_identity (src : Token) (invert : Bool) :
    (Transliterator.new []).convert src invert = src := rfl

/-- Claim C6: when no matched-side token of any entry occurs as a substring
of the input, convert returns the input unchanged, so unmapped characters
pass through. -/
theorem c6_pass_through_unmatched (tbl : CharsMapping) (invert : Bool) (src : Token)
    (h : ∀ e ∈ tbl, occursIn (matchedSide invert e) src = false) :
    (Transliterator.new tbl).convert src invert = src := by
  have h0 : (Transliterator.new tbl).convert src invert
      = List.foldl
          (fun input elem =>
            if invert then replaceList input elem.2 elem.1
            else replaceList input elem.1 elem.2)
          src (sortRules tbl) := rfl
  rw [h0]
  apply foldl_fix
  intro e he
  have hocc := h e (mem_sortRules tbl e he)
  cases invert
  · show replaceList src e.1 e.2 = src
    exact replaceList_no_occurs src e.1 e.2 hocc
  · show replaceList src e.2 e.1 = src
    exact replaceList_no_occurs src e.2 e.1 hocc

/-- Witness for claim C6 at a concrete table and input. -/
theorem c6_pass_through_unmatched_witness :
    (∀ e ∈ ([((['а'] : Token), (['a'] : Token))] : CharsMapping),
        occursIn (matchedSide false e) ['x'] = false)
    ∧ (Transliterator.new [((['а'] : Token), (['a'] : Token))]).convert ['x'] false
        = ['x'] :=
  ⟨by decide,
    c6_pass_through_unmatched [((['а'] : Token), (['a'] : Token))] false ['x'] (by decide)⟩

/-- Claim C7 is false as stated: on the modelled GOST 7.79 System B Russian
table, the two-letter in-alphabet input consisting of ie and the soft sign
maps forward to the letter e followed by a backtick, which the inverse pass
reads back as the single letter e-oborotnoe, so the round trip does not
restore the input. -/
theorem c7_counterexample_roundtrip :
    (Gost779B.new Language.Ru).from_latin
        ((Gost779B.new Language.Ru).to_latin ['е', 'ь'])
      ≠ ['е', 'ь'] := by decide

/-- Claim C7 amended: the round trip is not an identity on the whole
supported alphabet, only on inputs whose forward image never forms the
target token of another rule across a boundary; it is verified here on the
literal scenario of the repository, the word Terminal. -/
theorem c7_roundtrip_amended :
    (Gost779B.new Language.Ru).from_latin
        ((Gost779B.new Language.Ru).to_latin ['Т', 'е', 'р', 'м', 'и', 'н', 'а', 'л'])
      = ['Т', 'е', 'р', 'м', 'и', 'н', 'а', 'л'] := by decide

/-- Claim C8: the ICAO Passport 2013 preset maps the documented literal
scenario, the Moscow street phrase, to its expected romanization. -/
theorem c8_passport_literal_scenario :
    Passport2013.new.to_latin
        ['М', 'о', 'с', 'к', 'в', 'а', ',', ' ',
         'Т', 'в', 'е', 'р', 'с', 'к', 'а', 'я', ' ',
         'у', 'л', 'и', 'ц', 'а']
      = ['M', 'o', 's', 'k', 'v', 'a', ',', ' ',
         'T', 'v', 'e', 'r', 's', 'k', 'a', 'i', 'a', ' ',
         'u', 'l', 'i', 't', 's', 'a'] := by decide

/-- Claim C9: the engine of src/src/lib.rs built by
from_custom_transliteration_table and the engine of
src/src/transliterator.rs built by new agree on convert for every table,
input and direction flag. -/
theorem c9_engines_agree (tbl : CharsMapping) (src : Token) (invert : Bool) :
    (TranslitLib.Transliterator.from_custom_transliteration_table tbl).convert src invert
      = (Transliterator.new tbl).convert src invert := rfl

/-- Claim C10: forward conversion under the ICAO Passport 2013 preset never
emits the Cyrillic soft sign, in either case: the sorted table ends with the
two entries deleting it, and deletion by single-character replacement is a
filter. -/
theorem c10_passport_no_soft_sign (src : Token) :
    'ь' ∉ Passport2013.new.to_latin src ∧ 'Ь' ∉ Passport2013.new.to_latin src := by
  have hdrop : (sortRules iternational_passport_2013_ru).drop 65
      = [((['Ь'] : Token), ([] : Token)), ((['ь'] : Token), ([] : Token))] := by decide
  have hsplit : sortRules iternational_passport_2013_ru
      = (sortRules iternational_passport_2013_ru).take 65
          ++ [((['Ь'] : Token), ([] : Token)), ((['ь'] : Token), ([] : Token))] := by
    conv_lhs => rw [← List.take_append_drop 65 (sortRules iternational_passport_2013_ru)]
    rw [hdrop]
  have h0 : Passport2013.new.to_latin src
      = List.foldl (fun input elem => replaceList input elem.1 elem.2) src
          (sortRules iternational_passport_2013_ru) := rfl
  rw [hsplit, List.foldl_append] at h0
  simp only [List.foldl_cons, List.foldl_nil] at h0
  rw [replaceList_single_del, replaceList_single_del] at h0
  rw [h0]
  constructor
  · intro hmem
    have := (List.mem_filter.mp hmem).2
    simp at this
  · intro hmem
    have h1 := (List.mem_filter.mp hmem).1
    have := (List.mem_filter.mp h1).2
    simp at this
